import Mathlib

/-!
Verification of the `placesmap` package (repository metakeule/places).

Go strings are modelled as `List Char` (the program only ever slices at
ASCII boundaries, so char-level and byte-level slicing agree on every
operation it performs).  Go maps built by the program are modelled as
association lists, pure Go functions as Lean functions, and the stateful
recursive placeholder resolver (`HTMLTemplateMapper`) as a fuel-indexed
interpreter threading an explicit state record.  A Go runtime panic
(index out of range) is modelled by the `Res.panicked` result.
-/

abbrev Str := List Char

/-- Whitespace per Go's `unicode.IsSpace` (the characters `strings.TrimSpace`
trims): Latin-1 white space and the Unicode space separators. -/
def isSpaceGo (c : Char) : Bool :=
  let n := c.toNat
  n = 9 || n = 10 || n = 11 || n = 12 || n = 13 || n = 32 ||
  n = 0x85 || n = 0xA0 || n = 0x1680 ||
  (0x2000 ≤ n && n ≤ 0x200A) ||
  n = 0x2028 || n = 0x2029 || n = 0x202F || n = 0x205F || n = 0x3000

/-- Go `strings.TrimSpace`: drop leading and trailing whitespace. -/
def trimSpace (l : Str) : Str :=
  ((l.dropWhile isSpaceGo).reverse.dropWhile isSpaceGo).reverse

/-- Split a list at the first occurrence of `ch`: returns the part before it
and the part after it (the occurrence itself removed), or `none` when `ch`
does not occur.  Models `strings.IndexRune` / `strings.SplitN(s, ch, 2)`. -/
def breakAt (ch : Char) : Str → Option (Str × Str)
  | [] => none
  | c :: r =>
    if c = ch then some ([], r)
    else (breakAt ch r).map (fun p => (c :: p.1, p.2))

/-- Go `strings.Split(s, ".")` (only its shape matters to the code). -/
def splitDot : Str → List Str
  | [] => [[]]
  | c :: r =>
    if c = '.' then [] :: splitDot r
    else
      match splitDot r with
      | [] => [[c]]
      | x :: xs => (c :: x) :: xs

/-- `split` from placesmap.go:29-49.  Returns `(prefix, rest)`.
The Go code searches for the space character `' '` (U+0020) with
`strings.IndexRune(input, ' ')`; the first character `'-'` is never a
space, so searching the whole input equals searching past the marker. -/
def split (input : Str) : Str × Str :=
  match input with
  | [] => ([], [])
  | c :: r =>
    if c = '-' ∧ r = [] then ([], [])
    else if c ≠ '-' then ([], input)
    else
      match breakAt ' ' r with
      | none => (r, [])
      | some (before, after) => (before, trimSpace (' ' :: after))

/-- A `places.Mapper` value: either a plain (leaf) mapper — any Go value
with a `Map(string) string` method — or an `NMapper` (collection), which
additionally has `Len()` and `NMap(n, sub)` (placesmap.go:323-327). -/
inductive Mapper where
  | base (f : Str → Str)
  | coll (f : Str → Str) (len : Nat) (nmap : Nat → Str → Mapper)

/-- Dynamic dispatch of the `Map` method. -/
def mapperMap : Mapper → Str → Str
  | .base f, s => f s
  | .coll f _ _, s => f s

/-- Association-list lookup, modelling Go map indexing `m[k]`. -/
def lookupA {α : Type} : List (Str × α) → Str → Option α
  | [], _ => none
  | (k, v) :: r, key => if k = key then some v else lookupA r key

/-- The registry type `_map map[string]places.Mapper` (placesmap.go:71). -/
abbrev Registry := List (Str × Mapper)

/-- `^[a-z]+$` (the `prefixRule` regexp, placesmap.go:69). -/
def goodPfx (p : Str) : Bool :=
  !p.isEmpty && p.all (fun c => 97 ≤ c.toNat && c.toNat ≤ 122)

/-- Errors returned by `_map.Add`: `ErrInvalidPrefix` (placesmap.go:61) and
`MapperAlreadyExistsError` (placesmap.go:63). -/
inductive MapAddErr where
  | invalidPfx
  | alreadyExists (p : Str)
deriving DecidableEq

/-- `_map.Add` from placesmap.go:78-87.  The successful result carries the
updated registry (the Go code mutates the map in place; the error paths
return before the mutation). -/
def mapAdd (reg : Registry) (p : Str) (m : Mapper) : Except MapAddErr Registry :=
  if p ≠ [] ∧ goodPfx p = false then .error .invalidPfx
  else if (lookupA reg p).isSome then .error (.alreadyExists p)
  else .ok ((p, m) :: reg)

/-- `_map.Map` from placesmap.go:95-114. -/
def mapMap (reg : Registry) (input : Str) : Str :=
  let pr := split input
  if pr.1 = [] ∧ pr.2 = [] then []
  else
    match lookupA reg pr.1 with
    | none => []
    | some m => mapperMap m pr.2

example : split "-each foo tmpl".data =
    ("each".data, "foo tmpl".data) := by decide
example : split [] = ([], []) := by decide
example : split "-".data = ([], []) := by decide
example : split "abc".data = ([], "abc".data) := by decide
example : split "-abc".data = ("abc".data, []) := by decide
example : split "-a\tb".data = ("a\tb".data, []) := by decide

/-- Modelled from the spec: escaping primitives "are assumed to exist as
library calls" (spec §1).  This is Go `html.EscapeString` on one character:
it escapes exactly `<`, `>`, `&`, `'` and `"`. -/
def escCh (c : Char) : Str :=
  if c = '&' then "&amp;".data
  else if c = '\'' then "&#39;".data
  else if c = '<' then "&lt;".data
  else if c = '>' then "&gt;".data
  else if c = '"' then "&#34;".data
  else [c]

/-- Go `html.EscapeString`. -/
def htmlEscape : Str → Str
  | [] => []
  | c :: r => escCh c ++ htmlEscape r

/-- Modelled from the spec: an HTML-unescaper (Go `html.UnescapeString`)
restricted to the five entities `html.EscapeString` emits; any other text
passes through unchanged. -/
def htmlUnescape : Str → Str
  | [] => []
  | c :: r =>
    if c = '&' then
      match r with
      | 'a' :: 'm' :: 'p' :: ';' :: r2 => '&' :: htmlUnescape r2
      | 'l' :: 't' :: ';' :: r2 => '<' :: htmlUnescape r2
      | 'g' :: 't' :: ';' :: r2 => '>' :: htmlUnescape r2
      | '#' :: '3' :: '4' :: ';' :: r2 => '"' :: htmlUnescape r2
      | '#' :: '3' :: '9' :: ';' :: r2 => '\'' :: htmlUnescape r2
      | r2 => '&' :: htmlUnescape r2
    else c :: htmlUnescape r

/-- Uppercase hexadecimal digit (as used by Go `url.QueryEscape`). -/
def hexDig (d : Nat) : Char :=
  match d with
  | 0 => '0' | 1 => '1' | 2 => '2' | 3 => '3' | 4 => '4'
  | 5 => '5' | 6 => '6' | 7 => '7' | 8 => '8' | 9 => '9'
  | 10 => 'A' | 11 => 'B' | 12 => 'C' | 13 => 'D' | 14 => 'E'
  | 15 => 'F' | _ => '0'

/-- Value of a hexadecimal digit character (upper or lower case). -/
def hexVal (c : Char) : Nat :=
  let n := c.toNat
  if 48 ≤ n ∧ n ≤ 57 then n - 48
  else if 65 ≤ n ∧ n ≤ 70 then n - 65 + 10
  else if 97 ≤ n ∧ n ≤ 102 then n - 97 + 10
  else 0

/-- The UTF-8 encoding of one character as a byte list (Go strings are
UTF-8 byte sequences; `url.QueryEscape` works byte by byte). -/
def utf8Bytes (c : Char) : List Nat :=
  if c.toNat < 0x80 then [c.toNat]
  else if c.toNat < 0x800 then [0xC0 + c.toNat / 64, 0x80 + c.toNat % 64]
  else if c.toNat < 0x10000 then
    [0xE0 + c.toNat / 4096, 0x80 + c.toNat / 64 % 64, 0x80 + c.toNat % 64]
  else
    [0xF0 + c.toNat / 262144, 0x80 + c.toNat / 4096 % 64, 0x80 + c.toNat / 64 % 64,
      0x80 + c.toNat % 64]

/-- Percent-encoding of a byte list: `%XX` per byte, uppercase hex. -/
def pctEncBytes : List Nat → Str
  | [] => []
  | b :: bs => '%' :: hexDig (b / 16) :: hexDig (b % 16) :: pctEncBytes bs

/-- Characters Go `url.QueryEscape` leaves unescaped: ASCII alphanumerics
and `-`, `_`, `.`, `~`. -/
def isUnreserved (c : Char) : Bool :=
  (65 ≤ c.toNat && c.toNat ≤ 90) || (97 ≤ c.toNat && c.toNat ≤ 122) ||
  (48 ≤ c.toNat && c.toNat ≤ 57) ||
  c.toNat = 45 || c.toNat = 95 || c.toNat = 46 || c.toNat = 126

/-- Modelled from the spec: Go `url.QueryEscape` on one character — space
becomes `+`, unreserved characters pass through, everything else is
percent-encoded per UTF-8 byte. -/
def escQ (c : Char) : Str :=
  if isUnreserved c then [c]
  else if c = ' ' then ['+']
  else pctEncBytes (utf8Bytes c)

/-- Go `url.QueryEscape`. -/
def queryEscape : Str → Str
  | [] => []
  | c :: r => escQ c ++ queryEscape r

/-- First stage of percent-decoding: recover the byte sequence
(`%XX` → byte, `+` → space, any other character → its own code). -/
def pctBytes : Str → List Nat
  | [] => []
  | c :: r =>
    if c = '%' then
      match r with
      | h1 :: h2 :: r2 => (hexVal h1 * 16 + hexVal h2) :: pctBytes r2
      | r2 => c.toNat :: pctBytes r2
    else if c = '+' then 32 :: pctBytes r
    else c.toNat :: pctBytes r

/-- Decode a UTF-8 byte list one byte at a time (lenient on malformed
input, exact on the output of `utf8Bytes`): `k` counts the continuation
bytes still expected and `acc` holds the scalar value accumulated so far. -/
def utf8DecAux : List Nat → Nat → Nat → Str
  | [], _, _ => []
  | b :: r, 0, _ =>
    if b < 0x80 then Char.ofNat b :: utf8DecAux r 0 0
    else if b < 0xE0 then utf8DecAux r 1 (b - 0xC0)
    else if b < 0xF0 then utf8DecAux r 2 (b - 0xE0)
    else utf8DecAux r 3 (b - 0xF0)
  | b :: r, k + 1, acc =>
    if k = 0 then Char.ofNat (acc * 64 + (b - 0x80)) :: utf8DecAux r 0 0
    else utf8DecAux r k (acc * 64 + (b - 0x80))

def utf8DecodeBytes (l : List Nat) : Str :=
  utf8DecAux l 0 0

/-- Modelled from the spec: percent-decoding (Go `url.QueryUnescape`),
lenient on malformed escapes. -/
def percentDecode (l : Str) : Str :=
  utf8DecodeBytes (pctBytes l)

/-- Lowercase hexadecimal digit (as used by Go `strconv.Quote` `\x` escapes). -/
def hexDigL (d : Nat) : Char :=
  match d with
  | 0 => '0' | 1 => '1' | 2 => '2' | 3 => '3' | 4 => '4'
  | 5 => '5' | 6 => '6' | 7 => '7' | 8 => '8' | 9 => '9'
  | 10 => 'a' | 11 => 'b' | 12 => 'c' | 13 => 'd' | 14 => 'e'
  | 15 => 'f' | _ => '0'

/-- Modelled from the spec: one character of Go `strconv.Quote` (which is
what `fmt.Sprintf("%#v", s)` prints for a string `s`, between the
enclosing double quotes): `"` and `\` get a backslash, the standard
control escapes `\a\b\f\n\r\t\v` are used, other ASCII control characters
become `\xhh`; characters ≥ 0x80 are treated as printable and kept. -/
def qCh (c : Char) : Str :=
  let n := c.toNat
  if c = '"' then ['\\', '"']
  else if c = '\\' then ['\\', '\\']
  else if n = 7 then ['\\', 'a']
  else if n = 8 then ['\\', 'b']
  else if n = 12 then ['\\', 'f']
  else if n = 10 then ['\\', 'n']
  else if n = 13 then ['\\', 'r']
  else if n = 9 then ['\\', 't']
  else if n = 11 then ['\\', 'v']
  else if n < 32 ∨ n = 127 then ['\\', 'x', hexDigL (n / 16), hexDigL (n % 16)]
  else [c]

def quoteInner : Str → Str
  | [] => []
  | c :: r => qCh c ++ quoteInner r

/-- Go-syntax quoted string: `fmt.Sprintf("%#v", s)` for a string value. -/
def goQuote (l : Str) : Str :=
  '"' :: (quoteInner l ++ ['"'])

example : htmlEscape "a<b&c".data = "a&lt;b&amp;c".data := by decide
example : htmlUnescape "a&lt;b&amp;c".data = "a<b&c".data := by decide
example : queryEscape "a b&c".data = "a+b%26c".data := by decide
example : percentDecode "a+b%26c".data = "a b&c".data := by decide
example : goQuote "a\"b".data = "\"a\\\"b\"".data := by decide
example : percentDecode (queryEscape "héllo €".data) = "héllo €".data := by decide

/-- Modelled from the spec: a parsed template of the external byte-level
template engine (spec §6) is a sequence of literal chunks and placeholder
expressions; `Render(parsedTemplate, resolver)` emits literals verbatim
and substitutes `resolver(expression)` for each placeholder, in order. -/
inductive Chunk where
  | lit (s : Str)
  | ph (s : Str)

/-- The immutable per-render environment of a `HTMLTemplateMapper`
(placesmap.go:301-308): the bindings map `m` and the parsed template
cache `HTMLTemplate.rsm`. -/
structure Env where
  bindings : List (Str × Mapper)
  cache : List (Str × List Chunk)

/-- The mutable fields of `HTMLTemplateMapper` (placesmap.go:305-307):
`preferred`, `indexes` (entries may be the nil `NMapper`) and `depth`. -/
structure HState where
  preferred : Option Mapper
  indexes : List (Option Mapper)
  depth : Int

/-- Result of an interpreted call: a produced string together with the
state after the call, a Go runtime panic, or fuel exhaustion. -/
inductive Res where
  | ok (out : Str) (st : HState)
  | panicked
  | fuelOut

def Res.bind : Res → (Str → HState → Res) → Res
  | .ok out st, f => f out st
  | .panicked, _ => .panicked
  | .fuelOut, _ => .fuelOut

/-- `h.indexes[h.depth-1] = nmm` (placesmap.go:499): `none` is the
index-out-of-range panic. -/
def setIndex (ix : List (Option Mapper)) (d : Int) (m : Mapper) :
    Option (List (Option Mapper)) :=
  if 0 ≤ d - 1 ∧ d - 1 < (ix.length : Int) then
    some (ix.set (d - 1).toNat (some m))
  else none

/-- `findMapper` from placesmap.go:361-368; outer `none` is the
index-out-of-range panic, inner value is the fetched entry (which can be
the nil `NMapper`). -/
def findMapper (st : HState) (d : Nat) : Option (Option Mapper) :=
  if st.indexes.length > d then some none
  else if d = 0 then none
  else if h : d - 1 < st.indexes.length then some (st.indexes.get ⟨d - 1, h⟩)
  else none

/-- The `for d := 0; d <= len(sb); d++` loop of `findNestedMapper`
(placesmap.go:384-392); `left` counts the remaining iterations. -/
def fnmLoop (st : HState) (m : Option Mapper) (d : Nat) (left : Nat) :
    Option (Option Mapper) :=
  match left with
  | 0 => some m
  | left + 1 =>
    match findMapper st d with
    | none => none
    | some none => some m
    | some (some nm) => fnmLoop st (some nm) (d + 1) left

/-- `findNestedMapper` from placesmap.go:371-395; outer `none` is a panic,
the inner option is the possibly-nil mapper it returns. -/
def findNested (st : HState) (sub : Str) : Option (Option Mapper) :=
  if sub = [] then some (some (Mapper.base (fun _ => [])))
  else if ((splitDot sub).length : Int) ≠ st.depth then
    some (some (Mapper.base (fun _ => "[Error] too deep var declaration".data)))
  else fnmLoop st none 0 ((splitDot sub).length + 1)

/-- Parsing of the `each` arguments (placesmap.go:462-470): split the rest
at the first space into `s[0]`/`s[1]` — `none` models the panic of the
unchecked `s[1]` access when there is no space — trim both, and split the
binding name at the first dot into name and sub-path. -/
def eachParse (rest : Str) : Option (Str × Str × Str) :=
  match breakAt ' ' rest with
  | none => none
  | some (s0, s1) =>
    match breakAt '.' (trimSpace s0) with
    | none => some (trimSpace s0, [], trimSpace s1)
    | some (a, b) => some (a, b, trimSpace s1)

/-- Modelled from the spec: `fmt.Sprintf`'s `%#v` rendering of a mapper
value is runtime reflection of the external fmt library; the claims only
depend on the result being an inline diagnostic, so it is modelled as a
fixed Go-syntax-like rendering per capability. -/
def goReprMapper : Mapper → Str
  | .base _ => "places.Mapper(...)".data
  | .coll _ _ _ => "places.NMapper(...)".data

/-- The diagnostic `fmt.Sprintf("not a NMapper: %#v\n", mp)`
(placesmap.go:528). -/
def notNMapperOut (m : Mapper) : Str :=
  "not a NMapper: ".data ++ goReprMapper m ++ ['\n']

/-- The six mutually recursive activities of the resolution engine:
`Map` (placesmap.go:351), `_map` (placesmap.go:453), `require`
(placesmap.go:310), `Template.ReplaceMapper` with the engine as resolver,
the indexed `each` loop (placesmap.go:495-520), and the `replaceVars`
loop (placesmap.go:397-451). -/
inductive Call where
  | mapC (input : Str)
  | mmapC (input : Str)
  | reqC (name : Str)
  | renderC (t : List Chunk)
  | eachC (t : List Chunk) (len : Nat) (nmap : Nat → Str → Mapper) (sub : Str) (i : Nat)
  | varsC (t : List Chunk) (len : Nat) (nmap : Nat → Str → Mapper) (sub : Str) (i : Nat)

/-- The fuel-indexed interpreter for `HTMLTemplateMapper`.  Every recursive
call spends one unit of fuel; `Res.fuelOut` only means the budget was too
small, while `Res.panicked` is a genuine Go runtime panic of the source. -/
def run : Nat → Env → HState → Call → Res
  | 0, _, _, _ => .fuelOut
  | fuel + 1, env, st, c =>
    match c with
    | .mapC input =>
      match st.preferred with
      | some m =>
        if mapperMap m input ≠ [] then .ok (mapperMap m input) st
        else run fuel env st (.mmapC input)
      | none => run fuel env st (.mmapC input)
    | .mmapC input =>
      let pr := split input
      if pr.1 = "require".data then run fuel env st (.reqC pr.2)
      else if pr.1 = "each".data then
        match eachParse pr.2 with
        | none => .panicked
        | some (mpName, sub, inc) =>
          match lookupA env.bindings mpName with
          | none => .ok [] st
          | some mp =>
            match lookupA env.cache inc with
            | none => .ok [] st
            | some t =>
              match mp with
              | .base f => .ok (notNMapperOut (.base f)) st
              | .coll _ len nmap =>
                (run fuel env ⟨st.preferred, st.indexes ++ [none], st.depth + 1⟩
                    (.eachC t len nmap sub 0)).bind fun out1 st2 =>
                (run fuel env st2 (.varsC t len nmap sub 0)).bind fun out2 st3 =>
                if st3.indexes.isEmpty then .panicked
                else .ok (out1 ++ out2) ⟨none, st3.indexes.dropLast, st3.depth - 1⟩
      else
        match lookupA env.bindings pr.2 with
        | none => .ok [] st
        | some mp =>
          if pr.1 = "js".data then .ok (goQuote (mapperMap mp pr.2)) st
          else if pr.1 = "raw".data then .ok (mapperMap mp pr.2) st
          else if pr.1 = "html".data then .ok (mapperMap mp pr.2) st
          else if pr.1 = "url".data then .ok (queryEscape (mapperMap mp pr.2)) st
          else if pr.1 = "include".data then
            if mapperMap mp (trimSpace pr.2) ≠ [] then
              run fuel env st (.reqC (mapperMap mp (trimSpace pr.2)))
            else .ok [] st
          else .ok (htmlEscape (mapperMap mp pr.2)) st
    | .reqC name =>
      match lookupA env.cache name with
      | none => .ok [] st
      | some t => run fuel env st (.renderC t)
    | .renderC t =>
      match t with
      | [] => .ok [] st
      | .lit s :: rest =>
        (run fuel env st (.renderC rest)).bind fun out st2 => .ok (s ++ out) st2
      | .ph p :: rest =>
        (run fuel env st (.mapC p)).bind fun out st2 =>
        (run fuel env st2 (.renderC rest)).bind fun out2 st3 => .ok (out ++ out2) st3
    | .eachC t len nmap sub i =>
      if i < len then
        match nmap i sub with
        | .coll f2 l2 n2 =>
          match setIndex st.indexes st.depth (.coll f2 l2 n2) with
          | none => .panicked
          | some ix2 =>
            (run fuel env ⟨st.preferred, ix2, st.depth⟩ (.varsC t l2 n2 sub 0)).bind
              fun out1 st2 =>
            (run fuel env st2 (.eachC t len nmap sub (i + 1))).bind fun out2 st3 =>
              .ok (out1 ++ out2) st3
        | .base f2 =>
          if sub ≠ [] then
            match findNested ⟨st.preferred, st.indexes, ((splitDot sub).length : Int)⟩ sub with
            | none => .panicked
            | some pref2 =>
              (run fuel env ⟨pref2, st.indexes, ((splitDot sub).length : Int)⟩
                  (.renderC t)).bind fun out1 st2 =>
              (run fuel env ⟨st2.preferred, [], 0⟩ (.eachC t len nmap sub (i + 1))).bind
                fun out2 st3 => .ok (out1 ++ out2) st3
          else
            (run fuel env ⟨some (.base f2), st.indexes, st.depth⟩ (.renderC t)).bind
              fun out1 st2 =>
            (run fuel env ⟨none, st2.indexes, st2.depth⟩ (.eachC t len nmap sub (i + 1))).bind
              fun out2 st3 => .ok (out1 ++ out2) st3
      else .ok [] st
    | .varsC t len nmap sub i =>
      if i < len then
        match nmap i sub with
        | .coll _ l2 n2 =>
          (run fuel env st (.varsC t l2 n2 sub 0)).bind fun out1 st2 =>
          (run fuel env st2 (.varsC t len nmap sub (i + 1))).bind fun out2 st3 =>
            .ok (out1 ++ out2) st3
        | .base f2 =>
          (run fuel env ⟨some (.base f2), st.indexes, st.depth⟩ (.renderC t)).bind
            fun out1 st2 =>
          (run fuel env ⟨none, st2.indexes, st2.depth⟩ (.varsC t len nmap sub (i + 1))).bind
            fun out2 st3 => .ok (out1 ++ out2) st3
      else .ok [] st

example : run 2 ⟨[], []⟩ ⟨none, [], 0⟩ (.mmapC "-each x".data) = .panicked := rfl

section SanityChecks

example :
    run 10
      ⟨[("users".data, Mapper.coll (fun _ => []) 1 (fun _ _ => Mapper.base (fun _ => "A".data)))],
        [("tmpl".data, [Chunk.ph "x".data])]⟩
      ⟨none, [], 0⟩ (.mmapC "-each users tmpl".data)
    = .ok "AA".data ⟨none, [], 0⟩ := rfl

example :
    run 10 ⟨[("x".data, Mapper.base (fun _ => "&amp;".data))], []⟩ ⟨none, [], 0⟩
      (.mmapC "-html x".data)
    = .ok "&amp;".data ⟨none, [], 0⟩ := rfl

example :
    run 10 ⟨[("x".data, Mapper.base (fun _ => "a<b".data))], []⟩ ⟨none, [], 0⟩
      (.mmapC "x".data)
    = .ok "a&lt;b".data ⟨none, [], 0⟩ := rfl

end SanityChecks

/-- The well-formed `each` expression `-each <bn> <tn>`. -/
def eachExpr (bn tn : Str) : Str :=
  '-' :: ("each".data ++ ' ' :: (bn ++ ' ' :: tn))

/-- The fresh per-render state: no preferred mapper, empty indexes stack,
depth zero. -/
def st0 : HState := ⟨none, [], 0⟩

def env0 : Env := ⟨[], []⟩

/-- The identity mapper (returns the placeholder itself, like `Self("")`). -/
def idMapper : Mapper := Mapper.base (fun s => s)

def mA : Mapper := Mapper.base (fun _ => "A".data)

def mB : Mapper := Mapper.base (fun _ => "B".data)

/-- A collection of one leaf element whose every lookup yields `"A"`,
bound as `users`, together with a cached template `tmpl` consisting of a
single placeholder. -/
def envC1 : Env :=
  ⟨[("users".data, Mapper.coll (fun _ => []) 1 (fun _ _ => mA))],
    [("tmpl".data, [Chunk.ph "x".data])]⟩

/-- A binding whose value is literally the HTML entity `&amp;`. -/
def envC8 : Env := ⟨[("x".data, Mapper.base (fun _ => "&amp;".data))], []⟩

/-- An empty nested collection. -/
def innerC9 : Mapper := Mapper.coll (fun _ => []) 0 (fun _ _ => Mapper.base (fun _ => []))

/-- `z` bound to a one-element collection whose element is itself a
collection, with an empty template `t` cached. -/
def envC9 : Env :=
  ⟨[("z".data, Mapper.coll (fun _ => []) 1 (fun _ _ => innerC9))],
    [("t".data, ([] : List Chunk))]⟩

/-- A dispatch-entry state in which the depth counter (1) disagrees with
the indexes-stack length (2) — reachable mid-render through the
sub-path branch of a nested `each` (placesmap.go:506 sets `depth` from
the sub-path, not from the stack). -/
def stC9 : HState := ⟨none, [none, none], 1⟩


/-- The per-render state is fully restored: same depth, same indexes
stack, and the preferred provider is either untouched or cleared to nil
(every code path either leaves it alone or assigns nil after use). -/
def Restores (st st2 : HState) : Prop :=
  st2.depth = st.depth ∧ st2.indexes = st.indexes ∧
    (st2.preferred = st.preferred ∨ st2.preferred = none)

/-- The iteration loops preserve the depth and the indexes stack except
possibly for its topmost slot (which `h.indexes[h.depth-1] = nmm`
overwrites). -/
def Lf1 (st st2 : HState) : Prop :=
  st2.depth = st.depth ∧ st2.indexes.length = st.indexes.length ∧
    st2.indexes.dropLast = st.indexes.dropLast

/-- What an `each` loop guarantees on normal return: either the stack
shape is preserved up to the topmost slot, or the loop went through the
sub-path leaf branch which wipes the stack (placesmap.go:510-511). -/
def LoopFrame (st st2 : HState) : Prop :=
  Lf1 st st2 ∨ (st2.indexes = [] ∧ st2.depth = 0)

/-- The state guarantee of each interpreter activity on normal return,
assuming the entry state satisfies `depth = |indexes|`. -/
def FrameSpec : Call → HState → HState → Prop
  | .eachC _ _ _ _ _, st, st2 => LoopFrame st st2
  | _, st, st2 => Restores st st2


/-- `z` bound to an empty collection, empty template `t` cached. -/
def envC9w : Env := ⟨[("z".data, innerC9)], [("t".data, ([] : List Chunk))]⟩

/-- A mid-render state with one open iteration level. -/
def st9w : HState := ⟨none, [none], 1⟩


theorem charOfNat_toNat (c : Char) : Char.ofNat c.toNat = c := by
  have hv : c.toNat.isValidChar := c.valid
  apply Char.eq_of_val_eq
  apply UInt32.toNat.inj
  show (Char.ofNat c.toNat).val.toNat = c.toNat
  unfold Char.ofNat
  rw [dif_pos hv]
  rfl

theorem char_toNat_lt (c : Char) : c.toNat < 1114112 := by
  have hv : c.toNat.isValidChar := c.valid
  rcases hv with h | h
  · omega
  · omega


set_option maxHeartbeats 1000000 in
theorem htmlUnescape_cons_ne (c : Char) (r : Str) (h : ¬ c = '&') :
    htmlUnescape (c :: r) = c :: htmlUnescape r := by
  rw [htmlUnescape.eq_def]
  simp [h]

theorem htmlUnescape_htmlEscape (l : Str) : htmlUnescape (htmlEscape l) = l := by
  induction l with
  | nil => rfl
  | cons c r ih =>
    show htmlUnescape (escCh c ++ htmlEscape r) = c :: r
    by_cases h1 : c = '&'
    · subst h1
      show htmlUnescape ('&' :: 'a' :: 'm' :: 'p' :: ';' :: htmlEscape r) = _
      rw [show ∀ z, htmlUnescape ('&' :: 'a' :: 'm' :: 'p' :: ';' :: z)
          = '&' :: htmlUnescape z from fun z => rfl, ih]
    by_cases h2 : c = '\''
    · subst h2
      show htmlUnescape ('&' :: '#' :: '3' :: '9' :: ';' :: htmlEscape r) = _
      rw [show ∀ z, htmlUnescape ('&' :: '#' :: '3' :: '9' :: ';' :: z)
          = '\'' :: htmlUnescape z from fun z => rfl, ih]
    by_cases h3 : c = '<'
    · subst h3
      show htmlUnescape ('&' :: 'l' :: 't' :: ';' :: htmlEscape r) = _
      rw [show ∀ z, htmlUnescape ('&' :: 'l' :: 't' :: ';' :: z)
          = '<' :: htmlUnescape z from fun z => rfl, ih]
    by_cases h4 : c = '>'
    · subst h4
      show htmlUnescape ('&' :: 'g' :: 't' :: ';' :: htmlEscape r) = _
      rw [show ∀ z, htmlUnescape ('&' :: 'g' :: 't' :: ';' :: z)
          = '>' :: htmlUnescape z from fun z => rfl, ih]
    by_cases h5 : c = '"'
    · subst h5
      show htmlUnescape ('&' :: '#' :: '3' :: '4' :: ';' :: htmlEscape r) = _
      rw [show ∀ z, htmlUnescape ('&' :: '#' :: '3' :: '4' :: ';' :: z)
          = '"' :: htmlUnescape z from fun z => rfl, ih]
    · rw [show escCh c = [c] by simp [escCh, h1, h2, h3, h4, h5]]
      show htmlUnescape (c :: htmlEscape r) = _
      rw [htmlUnescape_cons_ne c _ h1, ih]

theorem hexVal_hexDig {d : Nat} (h : d < 16) : hexVal (hexDig d) = d := by
  interval_cases d <;> decide

theorem utf8Bytes_lt (c : Char) : ∀ b ∈ utf8Bytes c, b < 256 := by
  have := char_toNat_lt c
  intro b hb
  unfold utf8Bytes at hb
  split_ifs at hb <;> simp at hb <;> omega

theorem pctBytes_cons_other (c : Char) (r : Str) (h1 : ¬ c = '%') (h2 : ¬ c = '+') :
    pctBytes (c :: r) = c.toNat :: pctBytes r := by
  rw [pctBytes.eq_def]
  simp [h1, h2]

theorem pctBytes_plus (r : Str) : pctBytes ('+' :: r) = 32 :: pctBytes r := by
  rw [pctBytes.eq_def]
  simp

theorem pctBytes_pct (h1 h2 : Char) (r : Str) :
    pctBytes ('%' :: h1 :: h2 :: r) = (hexVal h1 * 16 + hexVal h2) :: pctBytes r := rfl

theorem pctBytes_pctEncBytes (bs : List Nat) (tail : Str)
    (h : ∀ b ∈ bs, b < 256) :
    pctBytes (pctEncBytes bs ++ tail) = bs ++ pctBytes tail := by
  induction bs with
  | nil => rfl
  | cons b bs ih =>
    have hb : b < 256 := h b (by simp)
    show pctBytes ('%' :: hexDig (b / 16) :: hexDig (b % 16) :: (pctEncBytes bs ++ tail))
        = b :: (bs ++ pctBytes tail)
    rw [pctBytes_pct, hexVal_hexDig (by omega), hexVal_hexDig (by omega),
      ih (fun x hx => h x (by simp [hx]))]
    have : b / 16 * 16 + b % 16 = b := by omega
    rw [this]

theorem utf8Dec_one (b : Nat) (r : List Nat) (h : b < 0x80) :
    utf8DecAux (b :: r) 0 0 = Char.ofNat b :: utf8DecAux r 0 0 := by
  simp [utf8DecAux, h]

theorem utf8Dec_two (b b1 : Nat) (r : List Nat) (h1 : ¬ b < 0x80) (h2 : b < 0xE0) :
    utf8DecAux (b :: b1 :: r) 0 0
      = Char.ofNat ((b - 0xC0) * 64 + (b1 - 0x80)) :: utf8DecAux r 0 0 := by
  simp [utf8DecAux, h1, h2]

theorem utf8Dec_three (b b1 b2 : Nat) (r : List Nat)
    (h1 : ¬ b < 0x80) (h2 : ¬ b < 0xE0) (h3 : b < 0xF0) :
    utf8DecAux (b :: b1 :: b2 :: r) 0 0
      = Char.ofNat (((b - 0xE0) * 64 + (b1 - 0x80)) * 64 + (b2 - 0x80))
        :: utf8DecAux r 0 0 := by
  simp [utf8DecAux, h1, h2, h3]

theorem utf8Dec_four (b b1 b2 b3 : Nat) (r : List Nat)
    (h1 : ¬ b < 0x80) (h2 : ¬ b < 0xE0) (h3 : ¬ b < 0xF0) :
    utf8DecAux (b :: b1 :: b2 :: b3 :: r) 0 0
      = Char.ofNat ((((b - 0xF0) * 64 + (b1 - 0x80)) * 64 + (b2 - 0x80)) * 64 + (b3 - 0x80))
        :: utf8DecAux r 0 0 := by
  simp [utf8DecAux, h1, h2, h3]

theorem utf8_round (c : Char) (rest : List Nat) :
    utf8DecAux (utf8Bytes c ++ rest) 0 0 = c :: utf8DecAux rest 0 0 := by
  have hlt := char_toNat_lt c
  unfold utf8Bytes
  split_ifs with h1 h2 h3
  · show utf8DecAux (c.toNat :: rest) 0 0 = _
    rw [utf8Dec_one _ _ h1, charOfNat_toNat]
  · show utf8DecAux ((0xC0 + c.toNat / 64) :: (0x80 + c.toNat % 64) :: rest) 0 0 = _
    rw [utf8Dec_two _ _ _ (by omega) (by omega)]
    rw [show (0xC0 + c.toNat / 64 - 0xC0) * 64 + (0x80 + c.toNat % 64 - 0x80) = c.toNat by
      omega]
    rw [charOfNat_toNat]
  · show utf8DecAux
        ((0xE0 + c.toNat / 4096) :: (0x80 + c.toNat / 64 % 64) :: (0x80 + c.toNat % 64) :: rest)
        0 0 = _
    rw [utf8Dec_three _ _ _ _ (by omega) (by omega) (by omega)]
    rw [show ((0xE0 + c.toNat / 4096 - 0xE0) * 64 + (0x80 + c.toNat / 64 % 64 - 0x80)) * 64
        + (0x80 + c.toNat % 64 - 0x80) = c.toNat by omega]
    rw [charOfNat_toNat]
  · show utf8DecAux
        ((0xF0 + c.toNat / 262144) :: (0x80 + c.toNat / 4096 % 64) :: (0x80 + c.toNat / 64 % 64)
          :: (0x80 + c.toNat % 64) :: rest) 0 0 = _
    rw [utf8Dec_four _ _ _ _ _ (by omega) (by omega) (by omega)]
    rw [show (((0xF0 + c.toNat / 262144 - 0xF0) * 64 + (0x80 + c.toNat / 4096 % 64 - 0x80)) * 64
        + (0x80 + c.toNat / 64 % 64 - 0x80)) * 64 + (0x80 + c.toNat % 64 - 0x80) = c.toNat by
      omega]
    rw [charOfNat_toNat]

theorem pctBytes_escQ (c : Char) (rest : Str) :
    pctBytes (escQ c ++ rest) = utf8Bytes c ++ pctBytes rest := by
  unfold escQ
  by_cases hu : isUnreserved c = true
  · rw [if_pos hu]
    have hn : 32 ≤ c.toNat ∧ c.toNat < 128 ∧ c.toNat ≠ 37 ∧ c.toNat ≠ 43 := by
      simp only [isUnreserved, Bool.or_eq_true, Bool.and_eq_true, decide_eq_true_eq] at hu
      omega
    have hp : ¬ (c = '%') := by
      rintro rfl; exact absurd rfl hn.2.2.1
    have hq : ¬ (c = '+') := by
      rintro rfl; exact absurd rfl hn.2.2.2
    show pctBytes (c :: rest) = _
    rw [pctBytes_cons_other _ _ hp hq]
    rw [show utf8Bytes c = [c.toNat] by unfold utf8Bytes; rw [if_pos (by omega)]]
    rfl
  · rw [if_neg hu]
    by_cases hs : c = ' '
    · subst hs; rw [if_pos rfl]
      show pctBytes ('+' :: rest) = _
      rw [pctBytes_plus]
      rfl
    · rw [if_neg hs]
      exact pctBytes_pctEncBytes _ _ (utf8Bytes_lt c)

theorem percentDecode_queryEscape (l : Str) : percentDecode (queryEscape l) = l := by
  induction l with
  | nil => rfl
  | cons c r ih =>
    show percentDecode (escQ c ++ queryEscape r) = c :: r
    unfold percentDecode utf8DecodeBytes at ih ⊢
    rw [pctBytes_escQ, utf8_round]
    exact congrArg (c :: ·) ih

theorem dropWhile_eq_self_of {p : Char → Bool} {l : Str}
    (h : ∀ c ∈ l, p c = false) : l.dropWhile p = l := by
  cases l with
  | nil => rfl
  | cons c r => rw [List.dropWhile_cons, h c (by simp)]; simp

theorem trimSpace_no_ws {l : Str} (h : ∀ c ∈ l, isSpaceGo c = false) :
    trimSpace l = l := by
  unfold trimSpace
  rw [dropWhile_eq_self_of h, dropWhile_eq_self_of (fun c hc => h c (by
    simpa using hc)), List.reverse_reverse]

theorem trimSpace_cons_space (l : Str) : trimSpace (' ' :: l) = trimSpace l := by
  unfold trimSpace
  rw [List.dropWhile_cons, if_pos (by decide)]

theorem breakAt_append {ch : Char} {p : Str} (z : Str)
    (h : ∀ c ∈ p, ¬ c = ch) : breakAt ch (p ++ ch :: z) = some (p, z) := by
  induction p with
  | nil => simp [breakAt]
  | cons c r ih =>
    have hc : ¬ c = ch := h c (by simp)
    rw [List.cons_append, breakAt, if_neg hc, ih (fun x hx => h x (by simp [hx]))]
    rfl

theorem breakAt_none {ch : Char} {l : Str} (h : ∀ c ∈ l, ¬ c = ch) :
    breakAt ch l = none := by
  induction l with
  | nil => rfl
  | cons c r ih =>
    rw [breakAt, if_neg (h c (by simp)), ih (fun x hx => h x (by simp [hx]))]
    rfl

theorem split_dash (p name : Str) (hp : ∀ c ∈ p, ¬ c = ' ') :
    split ('-' :: (p ++ ' ' :: name)) = (p, trimSpace name) := by
  rw [split]
  rw [if_neg (by simp), if_neg (by simp)]
  rw [breakAt_append _ hp]
  show (p, trimSpace (' ' :: name)) = (p, trimSpace name)
  rw [trimSpace_cons_space]

theorem goodPfx_spec {p : Str} (h : goodPfx p = true) :
    p ≠ [] ∧ ∀ c ∈ p, 97 ≤ c.toNat ∧ c.toNat ≤ 122 := by
  simp only [goodPfx, Bool.and_eq_true, Bool.not_eq_true', List.isEmpty_eq_false_iff_exists_mem,
    List.all_eq_true, Bool.and_eq_true, decide_eq_true_eq] at h
  constructor
  · rcases h.1 with ⟨x, hx⟩
    intro he; rw [he] at hx; cases hx
  · exact h.2

theorem goodPfx_no_space {p : Str} (h : goodPfx p = true) : ∀ c ∈ p, ¬ c = ' ' := by
  intro c hc he
  have := (goodPfx_spec h).2 c hc
  rw [he] at this
  exact absurd this (by decide)

/-- Resolution of a prefixed expression by the registry: shared by the C4
and C7 theorems. -/
theorem mapMap_dash {reg : Registry} {p v name}
    (hg : goodPfx p = true) (ht : trimSpace name = name)
    (hl : lookupA reg p = some v) :
    mapMap reg ('-' :: (p ++ ' ' :: name)) = mapperMap v name := by
  unfold mapMap
  rw [split_dash p name (goodPfx_no_space hg), ht]
  rw [if_neg (by intro hx; exact (goodPfx_spec hg).1 hx.1)]
  rw [hl]

theorem no_space_of_no_ws {bn : Str} (h : ∀ c ∈ bn, isSpaceGo c = false) :
    ∀ c ∈ bn, ¬ c = ' ' := by
  intro c hc he
  have := h c hc
  rw [he] at this
  exact absurd this (by decide)

theorem eachParse_wf {bn tn : Str}
    (hws : ∀ c ∈ bn, isSpaceGo c = false)
    (hdot : ∀ c ∈ bn, ¬ c = '.')
    (htn : trimSpace tn = tn) :
    eachParse (bn ++ ' ' :: tn) = some (bn, [], tn) := by
  unfold eachParse
  rw [breakAt_append _ (no_space_of_no_ws hws)]
  show (match breakAt '.' (trimSpace bn) with
    | none => some (trimSpace bn, [], trimSpace tn)
    | some (a, b) => some (a, b, trimSpace tn)) = _
  rw [trimSpace_no_ws hws, breakAt_none hdot, htn]

theorem split_each (bn tn : Str)
    (htrim : trimSpace (bn ++ ' ' :: tn) = bn ++ ' ' :: tn) :
    split ('-' :: ("each".data ++ ' ' :: (bn ++ ' ' :: tn)))
      = ("each".data, bn ++ ' ' :: tn) := by
  rw [split_dash _ _ (by decide), htrim]

/-- `split` on an expression that does not start with the marker. -/
theorem split_nomarker {name : Str} (h1 : name ≠ [])
    (h2 : name.head? ≠ some '-') : split name = ([], name) := by
  cases name with
  | nil => exact absurd rfl h1
  | cons c r =>
    have hc : ¬ c = '-' := by
      intro he; exact h2 (by rw [he]; rfl)
    rw [split, if_neg (by simp [hc]), if_pos hc]

/-- Default (no-directive) dispatch: the binding's value is HTML-escaped
(placesmap.go:554). -/
theorem run_mmap_default (fuel : Nat) (env : Env) (st : HState) (name : Str) (v : Mapper)
    (h1 : name ≠ []) (h2 : name.head? ≠ some '-')
    (hv : lookupA env.bindings name = some v) :
    run (fuel + 1) env st (.mmapC name) = .ok (htmlEscape (mapperMap v name)) st := by
  conv_lhs => rw [run]
  simp only [split_nomarker h1 h2, hv]
  simp

/-- `js` directive dispatch (placesmap.go:541). -/
theorem run_mmap_js (fuel : Nat) (env : Env) (st : HState) (name : Str) (v : Mapper)
    (ht : trimSpace name = name) (hv : lookupA env.bindings name = some v) :
    run (fuel + 1) env st (.mmapC ('-' :: ("js".data ++ ' ' :: name)))
      = .ok (goQuote (mapperMap v name)) st := by
  conv_lhs => rw [run]
  simp only [split_dash "js".data name (by decide), ht, hv]
  simp

/-- `url` directive dispatch (placesmap.go:547). -/
theorem run_mmap_url (fuel : Nat) (env : Env) (st : HState) (name : Str) (v : Mapper)
    (ht : trimSpace name = name) (hv : lookupA env.bindings name = some v) :
    run (fuel + 1) env st (.mmapC ('-' :: ("url".data ++ ' ' :: name)))
      = .ok (queryEscape (mapperMap v name)) st := by
  conv_lhs => rw [run]
  simp only [split_dash "url".data name (by decide), ht, hv]
  simp

/-- `html` directive dispatch: the value passes through unescaped, same as
`raw` (placesmap.go:544-545). -/
theorem run_mmap_html (fuel : Nat) (env : Env) (st : HState) (name : Str) (v : Mapper)
    (ht : trimSpace name = name) (hv : lookupA env.bindings name = some v) :
    run (fuel + 1) env st (.mmapC ('-' :: ("html".data ++ ' ' :: name)))
      = .ok (mapperMap v name) st := by
  conv_lhs => rw [run]
  simp only [split_dash "html".data name (by decide), ht, hv]
  simp

/-- C1: the claim states that `each` over a Collection Provider of length
`n` substitutes the concatenation of exactly `n` per-element renders.
The code violates this: after the indexed loop (placesmap.go:495-520) it
calls `replaceVars` on the same collection again (placesmap.go:522), so a
collection of length 1 whose single render is `"A"` substitutes `"AA"`
(2n renders), as this evaluation of the embedded code shows. -/
theorem c1_each_renders_twice :
    run 10 envC1 st0 (.mmapC "-each users tmpl".data) = .ok "AA".data st0 ∧
    run 10 envC1 ⟨some mA, [], 0⟩ (.renderC [Chunk.ph "x".data])
      = .ok "A".data ⟨some mA, [], 0⟩ :=
  ⟨rfl, rfl⟩

/-- C2: the claim states that `Map` always returns a string and never
panics.  The code violates this: for the expression `-each x` the `each`
branch evaluates `s[1]` on the result of `strings.SplitN(rest, " ", 2)`
without checking its length (placesmap.go:462-463), which panics with an
index-out-of-range runtime error, aborting the render. -/
theorem c2_map_each_panics :
    (∀ (env : Env) (st : HState), run 1 env st (.mmapC "-each x".data) = .panicked) ∧
    run 2 env0 st0 (.mapC "-each x".data) = .panicked :=
  ⟨fun _ _ => rfl, rfl⟩

/-- C3: the claim (and the function's own doc comment) say the prefix
extends to the next whitespace (`\s`); the code searches only for the
space character U+0020 (placesmap.go:39), so on `"-a\tb"` — where the
first whitespace is a tab — it returns prefix `"a\tb"` and empty rest
instead of the claimed prefix `"a"` and rest `"b"`. -/
theorem c3_split_space_only :
    split "-a\tb".data = ("a\tb".data, []) ∧
    ("a\tb".data, ([] : Str)) ≠ ("a".data, "b".data) := by
  constructor
  · decide
  · decide

/-- C4 counterexample: for the untrimmed name `" x"`, registering the
identity mapper under `"a"` and resolving `"-a  x"` yields `"x"`
(the remainder is trimmed, placesmap.go:47), not `v.Map(" x") = " x"`,
so the claim fails for names that are not trim-fixed. -/
theorem c4_counterexample :
    mapAdd [] "a".data idMapper = .ok [("a".data, idMapper)] ∧
    mapMap [("a".data, idMapper)] ('-' :: ("a".data ++ ' ' :: " x".data)) = "x".data ∧
    mapperMap idMapper " x".data = " x".data ∧
    "x".data ≠ " x".data :=
  ⟨rfl, rfl, rfl, by decide⟩

/-- C4 (amended): for every prefix matching `^[a-z]+$` not yet registered
and every name unchanged by whitespace-trimming, `Add(p, v)` succeeds and
`Map("-" + p + " " + name)` yields exactly `v.Map(name)`. -/
theorem c4_add_map_roundtrip_trimmed (reg : Registry) (p : Str) (v : Mapper) (name : Str)
    (hg : goodPfx p = true) (hnew : lookupA reg p = none) (ht : trimSpace name = name) :
    ∃ reg2, mapAdd reg p v = .ok reg2 ∧
      mapMap reg2 ('-' :: (p ++ ' ' :: name)) = mapperMap v name := by
  refine ⟨(p, v) :: reg, ?_, ?_⟩
  · unfold mapAdd
    rw [if_neg (by simp [hg]), if_neg (by simp [hnew])]
  · exact mapMap_dash hg ht (by simp [lookupA])

theorem c4_witness :
    ∃ reg2, mapAdd [] "a".data idMapper = .ok reg2 ∧
      mapMap reg2 ('-' :: ("a".data ++ ' ' :: "x".data)) = mapperMap idMapper "x".data :=
  c4_add_map_roundtrip_trimmed [] "a".data idMapper "x".data (by decide) rfl (by decide)

/-- C5: whenever a preferred provider is active, `Map` returns its
non-empty answer unchanged — bypassing all dispatch and escaping — and
falls through to the full `_map` dispatch when the answer is empty
(placesmap.go:351-359). -/
theorem c5_preferred_shadowing (fuel : Nat) (env : Env) (st : HState) (input : Str)
    (m : Mapper) (hp : st.preferred = some m) :
    (mapperMap m input ≠ [] →
      run (fuel + 1) env st (.mapC input) = .ok (mapperMap m input) st) ∧
    (mapperMap m input = [] →
      run (fuel + 1) env st (.mapC input) = run fuel env st (.mmapC input)) := by
  constructor
  · intro hne
    conv_lhs => rw [run]
    simp only [hp]
    rw [if_pos hne]
  · intro he
    conv_lhs => rw [run]
    simp only [hp, he]
    simp

theorem c5_witness :
    run 1 env0 ⟨some mA, [], 0⟩ (.mapC "q".data) = .ok "A".data ⟨some mA, [], 0⟩ :=
  (c5_preferred_shadowing 0 env0 ⟨some mA, [], 0⟩ "q".data mA rfl).1 (by decide)

/-- C6: an `each` expression whose binding name is unbound substitutes the
empty string without aborting; a bound but non-collection target yields
the empty string (template missing) or the inline `not a NMapper`
diagnostic (template present), never an abort (placesmap.go:474-479 and
527-529). -/
theorem c6_each_fail_soft (fuel : Nat) (env : Env) (st : HState) (bn tn : Str)
    (hws : ∀ c ∈ bn, isSpaceGo c = false)
    (hdot : ∀ c ∈ bn, ¬ c = '.')
    (htn : trimSpace tn = tn)
    (htrim : trimSpace (bn ++ ' ' :: tn) = bn ++ ' ' :: tn) :
    (lookupA env.bindings bn = none →
      run (fuel + 1) env st (.mmapC (eachExpr bn tn)) = .ok [] st) ∧
    (∀ f, lookupA env.bindings bn = some (.base f) →
      ∃ out, run (fuel + 1) env st (.mmapC (eachExpr bn tn)) = .ok out st ∧
        (out = [] ∨ out = notNMapperOut (.base f))) := by
  constructor
  · intro hub
    conv_lhs => rw [run]
    unfold eachExpr
    simp only [split_each bn tn htrim]
    simp only [if_true, eachParse_wf hws hdot htn, hub]
    rw [if_neg (by decide)]
  · intro f hb
    have heq : run (fuel + 1) env st (.mmapC (eachExpr bn tn))
        = (match lookupA env.cache tn with
          | none => Res.ok [] st
          | some _ => Res.ok (notNMapperOut (.base f)) st) := by
      conv_lhs => rw [run]
      unfold eachExpr
      simp only [split_each bn tn htrim]
      simp only [if_true, eachParse_wf hws hdot htn, hb]
      rw [if_neg (by decide)]
    cases hc : lookupA env.cache tn with
    | none => exact ⟨[], by rw [heq, hc], Or.inl rfl⟩
    | some t => exact ⟨notNMapperOut (.base f), by rw [heq, hc], Or.inr rfl⟩

theorem c6_witness :
    run 1 env0 st0 (.mmapC (eachExpr "m".data "t".data)) = .ok [] st0 :=
  (c6_each_fail_soft 0 env0 st0 "m".data "t".data (by decide) (by decide) (by decide)
    (by decide)).1 rfl

/-- C7: a second `Add` on an already-registered prefix returns the
already-exists error and the registry still resolves through the first
provider; `Add` with a non-empty prefix not matching `^[a-z]+$` returns
the invalid-prefix error.  In both error paths the Go code returns before
the map assignment (placesmap.go:78-87), so the registry is unchanged. -/
theorem c7_add_errors (reg : Registry) (p : Str) (v1 v2 : Mapper)
    (hv : p = [] ∨ goodPfx p = true) (hl : lookupA reg p = some v1) :
    mapAdd reg p v2 = .error (.alreadyExists p) ∧
    (goodPfx p = true → ∀ name, trimSpace name = name →
      mapMap reg ('-' :: (p ++ ' ' :: name)) = mapperMap v1 name) ∧
    (∀ q w, q ≠ [] → goodPfx q = false → mapAdd reg q w = .error .invalidPfx) := by
  refine ⟨?_, ?_, ?_⟩
  · have hfirst : ¬ (p ≠ [] ∧ goodPfx p = false) := by
      rcases hv with rfl | hg
      · simp
      · simp [hg]
    unfold mapAdd
    rw [if_neg hfirst, if_pos (by simp [hl])]
  · intro hg name ht
    exact mapMap_dash hg ht hl
  · intro q w hq hqg
    unfold mapAdd
    rw [if_pos ⟨hq, hqg⟩]

theorem c7_witness :
    mapAdd [("a".data, mA)] "a".data mB = .error (.alreadyExists "a".data) ∧
    mapMap [("a".data, mA)] ('-' :: ("a".data ++ ' ' :: "n".data)) = mapperMap mA "n".data ∧
    mapAdd [("a".data, mA)] "A1".data mB = .error .invalidPfx := by
  have h := c7_add_errors [("a".data, mA)] "a".data mA mB (Or.inr (by decide)) rfl
  exact ⟨h.1, h.2.1 (by decide) "n".data (by decide), h.2.2 "A1".data mB (by decide) (by decide)⟩

/-- C8 counterexample: the claim asserts that HTML-unescaping the output
of the `html` directive recovers the original value.  The `html`
directive passes the value through unescaped (placesmap.go:544-545, same
as `raw`), so for the binding value `"&amp;"` — which contains `&`, a
character requiring escaping — the `html` output is `"&amp;"`, and
HTML-unescaping it gives `"&"`, not the original value. -/
theorem c8_counterexample :
    run 1 envC8 st0 (.mmapC ('-' :: ("html".data ++ ' ' :: "x".data)))
      = .ok "&amp;".data st0 ∧
    htmlUnescape "&amp;".data ≠ "&amp;".data ∧
    (∃ c ∈ ("&amp;".data : Str), escCh c ≠ [c]) :=
  ⟨rfl, by decide, ⟨'&', by decide, by decide⟩⟩

/-- C8 (amended): for every binding value containing characters that
require HTML escaping, HTML-unescaping the output of the default
(no-directive) dispatch recovers the original value and percent-decoding
the output of the `url` directive recovers the original value; the
`html` directive passes the value through unescaped (so no escaping
round-trip applies to it). -/
theorem c8_escape_roundtrips (fuel : Nat) (env : Env) (st : HState) (name : Str) (v : Mapper)
    (hv : lookupA env.bindings name = some v)
    (ht : trimSpace name = name)
    (h1 : name ≠ []) (h2 : name.head? ≠ some '-')
    (_hesc : ∃ c ∈ mapperMap v name, escCh c ≠ [c]) :
    (run (fuel + 1) env st (.mmapC name) = .ok (htmlEscape (mapperMap v name)) st ∧
      htmlUnescape (htmlEscape (mapperMap v name)) = mapperMap v name) ∧
    (run (fuel + 1) env st (.mmapC ('-' :: ("url".data ++ ' ' :: name)))
        = .ok (queryEscape (mapperMap v name)) st ∧
      percentDecode (queryEscape (mapperMap v name)) = mapperMap v name) ∧
    run (fuel + 1) env st (.mmapC ('-' :: ("html".data ++ ' ' :: name)))
        = .ok (mapperMap v name) st := by
  refine ⟨⟨?_, ?_⟩, ⟨?_, ?_⟩, ?_⟩
  · exact run_mmap_default fuel env st name v h1 h2 hv
  · exact htmlUnescape_htmlEscape _
  · exact run_mmap_url fuel env st name v ht hv
  · exact percentDecode_queryEscape _
  · exact run_mmap_html fuel env st name v ht hv

theorem c8_witness :
    (run 1 envC8 st0 (.mmapC "x".data) = .ok (htmlEscape "&amp;".data) st0 ∧
      htmlUnescape (htmlEscape "&amp;".data) = "&amp;".data) ∧
    (run 1 envC8 st0 (.mmapC ('-' :: ("url".data ++ ' ' :: "x".data)))
        = .ok (queryEscape "&amp;".data) st0 ∧
      percentDecode (queryEscape "&amp;".data) = "&amp;".data) ∧
    run 1 envC8 st0 (.mmapC ('-' :: ("html".data ++ ' ' :: "x".data)))
        = .ok "&amp;".data st0 :=
  c8_escape_roundtrips 0 envC8 st0 "x".data (Mapper.base (fun _ => "&amp;".data))
    rfl (by decide) (by decide) (by decide) ⟨'&', by decide, by decide⟩

/-- C10: the `js` directive renders the bound value with `fmt`'s `%#v`
(placesmap.go:541), i.e. as a Go-syntax quoted string — enclosed in
double quotes with Go backslash escape sequences — not with any
JavaScript-specific escaping. -/
theorem c10_js_go_quoted (fuel : Nat) (env : Env) (st : HState) (name : Str) (v : Mapper)
    (hv : lookupA env.bindings name = some v) (ht : trimSpace name = name) :
    run (fuel + 1) env st (.mmapC ('-' :: ("js".data ++ ' ' :: name)))
      = .ok (goQuote (mapperMap v name)) st ∧
    (goQuote (mapperMap v name)).head? = some '"' ∧
    (goQuote (mapperMap v name)).getLast? = some '"' := by
  refine ⟨run_mmap_js fuel env st name v ht hv, rfl, ?_⟩
  show ('"' :: (quoteInner (mapperMap v name) ++ ['"'])).getLast? = some '"'
  rw [show ('"' :: (quoteInner (mapperMap v name) ++ ['"']))
      = ('"' :: quoteInner (mapperMap v name)) ++ ['"'] by simp]
  exact List.getLast?_concat _

theorem c10_witness :
    run 1 envC8 st0 (.mmapC ('-' :: ("js".data ++ ' ' :: "x".data)))
      = .ok (goQuote "&amp;".data) st0 ∧
    (goQuote "&amp;".data).head? = some '"' ∧
    (goQuote "&amp;".data).getLast? = some '"' :=
  c10_js_go_quoted 0 envC8 st0 "x".data (Mapper.base (fun _ => "&amp;".data)) rfl (by decide)

theorem restores_refl (st : HState) : Restores st st := ⟨rfl, rfl, Or.inl rfl⟩

theorem restores_trans {a b c : HState} (h1 : Restores a b) (h2 : Restores b c) :
    Restores a c := by
  obtain ⟨d1, i1, p1⟩ := h1
  obtain ⟨d2, i2, p2⟩ := h2
  refine ⟨by rw [d2, d1], by rw [i2, i1], ?_⟩
  rcases p2 with p2 | p2
  · rcases p1 with p1 | p1
    · exact Or.inl (by rw [p2, p1])
    · exact Or.inr (by rw [p2, p1])
  · exact Or.inr p2

theorem lf1_refl (st : HState) : Lf1 st st := ⟨rfl, rfl, rfl⟩

theorem lf1_of_restores {a b : HState} (h : Restores a b) : Lf1 a b :=
  ⟨h.1, by rw [h.2.1], by rw [h.2.1]⟩

theorem lf1_trans {a b c : HState} (h1 : Lf1 a b) (h2 : Lf1 b c) : Lf1 a c :=
  ⟨by rw [h2.1, h1.1], by rw [h2.2.1, h1.2.1], by rw [h2.2.2, h1.2.2]⟩

theorem lf1_loopFrame_trans {a b c : HState} (h1 : Lf1 a b) (h2 : LoopFrame b c) :
    LoopFrame a c := by
  rcases h2 with h2 | h2
  · exact Or.inl (lf1_trans h1 h2)
  · exact Or.inr h2

theorem dropLast_set_last {α : Type} (l : List α) (a : α) :
    (l.set (l.length - 1) a).dropLast = l.dropLast := by
  induction l with
  | nil => rfl
  | cons x r ih =>
    cases r with
    | nil => rfl
    | cons y r2 =>
      show ((x :: y :: r2).set (r2.length + 1) a).dropLast = _
      rw [List.set_cons_succ]
      rw [List.dropLast_cons_of_ne_nil (by
        intro he
        simpa using congrArg List.length he)]
      rw [List.dropLast_cons_of_ne_nil (by simp)]
      rw [show r2.length = (y :: r2).length - 1 by simp]
      rw [ih]

theorem bind_ok {r : Res} {f : Str → HState → Res} {out : Str} {st2 : HState}
    (h : Res.bind r f = .ok out st2) :
    ∃ o stA, r = .ok o stA ∧ f o stA = .ok out st2 := by
  cases r with
  | ok o stA => exact ⟨o, stA, rfl, h⟩
  | panicked => exact Res.noConfusion h
  | fuelOut => exact Res.noConfusion h

set_option maxHeartbeats 1000000 in
/-- The master frame invariant: on a normal (`ok`) return from any
interpreter activity entered with `depth = |indexes|`, the loops satisfy
`LoopFrame` and every other activity satisfies `Restores`.  Proved by
induction on the fuel. -/
theorem run_frame : ∀ (fuel : Nat) (env : Env) (st : HState) (c : Call) (out : Str)
    (st2 : HState), run fuel env st c = .ok out st2 →
    st.depth = (st.indexes.length : Int) → FrameSpec c st st2 := by
  intro fuel
  induction fuel with
  | zero =>
    intro env st c out st2 h _
    simp only [run] at h
    exact Res.noConfusion h
  | succ fuel ih =>
    intro env st c out st2 h hinv
    cases c with
    | mapC input =>
      rw [run] at h
      cases hp : st.preferred with
      | some m =>
        simp only [hp] at h
        by_cases hne : mapperMap m input ≠ []
        · rw [if_pos hne] at h
          injection h with h1 h2
          subst h2
          exact restores_refl st
        · rw [if_neg hne] at h
          exact ih env st (.mmapC input) out st2 h hinv
      | none =>
        simp only [hp] at h
        exact ih env st (.mmapC input) out st2 h hinv
    | reqC name =>
      rw [run] at h
      cases hc : lookupA env.cache name with
      | none =>
        simp only [hc] at h
        injection h with h1 h2
        subst h2
        exact restores_refl st
      | some t =>
        simp only [hc] at h
        exact ih env st (.renderC t) out st2 h hinv
    | renderC t =>
      cases t with
      | nil =>
        rw [run] at h
        injection h with h1 h2
        subst h2
        exact restores_refl st
      | cons ch rest =>
        cases ch with
        | lit s =>
          rw [run] at h
          obtain ⟨o1, stA, hr, h⟩ := bind_ok h
          injection h with h1 h2
          subst h2
          exact ih env st (.renderC rest) o1 stA hr hinv
        | ph p =>
          rw [run] at h
          obtain ⟨o1, stA, hr1, h⟩ := bind_ok h
          obtain ⟨o2, stB, hr2, h⟩ := bind_ok h
          injection h with h1 h2
          subst h2
          have hA : Restores st stA := ih env st (.mapC p) o1 stA hr1 hinv
          have hinvA : stA.depth = (stA.indexes.length : Int) := by
            rw [hA.1, hA.2.1]; exact hinv
          have hB : Restores stA stB := ih env stA (.renderC rest) o2 stB hr2 hinvA
          exact restores_trans hA hB
    | mmapC input =>
      rw [run] at h
      rcases hsp : split input with ⟨pre, rest⟩
      simp only [hsp] at h
      split at h
      · exact ih env st (.reqC rest) out st2 h hinv
      · split at h
        · rcases hep : eachParse rest with _ | ⟨mpName, sub, inc⟩
          · simp only [hep] at h
            exact Res.noConfusion h
          · simp only [hep] at h
            rcases hb : lookupA env.bindings mpName with _ | mp
            · simp only [hb] at h
              injection h with h1 h2
              subst h2
              exact restores_refl st
            · simp only [hb] at h
              rcases hcache : lookupA env.cache inc with _ | t
              · simp only [hcache] at h
                injection h with h1 h2
                subst h2
                exact restores_refl st
              · simp only [hcache] at h
                cases mp with
                | base f =>
                  injection h with h1 h2
                  subst h2
                  exact restores_refl st
                | coll f len nmap =>
                  obtain ⟨o1, stA, hr1, h⟩ := bind_ok h
                  obtain ⟨o2, stB, hr2, h⟩ := bind_ok h
                  by_cases hie : stB.indexes.isEmpty
                  · rw [if_pos hie] at h
                    exact Res.noConfusion h
                  · rw [if_neg hie] at h
                    injection h with h1 h2
                    subst h2
                    have hinv1 : (⟨st.preferred, st.indexes ++ [none],
                        st.depth + 1⟩ : HState).depth
                        = (((⟨st.preferred, st.indexes ++ [none], st.depth + 1⟩ : HState)
                          ).indexes.length : Int) := by
                      show st.depth + 1 = ((st.indexes ++ [none]).length : Int)
                      simp only [List.length_append, List.length_cons, List.length_nil]
                      omega
                    have hL : LoopFrame ⟨st.preferred, st.indexes ++ [none], st.depth + 1⟩
                        stA := ih env _ (.eachC t len nmap sub 0) o1 stA hr1 hinv1
                    have hinvA : stA.depth = (stA.indexes.length : Int) := by
                      rcases hL with ⟨hd, hl, _⟩ | ⟨hx, hd0⟩
                      · rw [hd, hl]
                        exact hinv1
                      · rw [hx, hd0]
                        simp
                    have hR : Restores stA stB :=
                      ih env stA (.varsC t len nmap sub 0) o2 stB hr2 hinvA
                    rcases hL with ⟨hd, hl, hdl⟩ | ⟨hx, hd0⟩
                    · refine ⟨?_, ?_, Or.inr rfl⟩
                      · show stB.depth - 1 = st.depth
                        rw [hR.1, hd]
                        show st.depth + 1 - 1 = st.depth
                        omega
                      · show stB.indexes.dropLast = st.indexes
                        rw [hR.2.1, hdl]
                        exact List.dropLast_concat
                    · exfalso
                      apply hie
                      rw [hR.2.1, hx]
                      rfl
        · rcases hb : lookupA env.bindings rest with _ | mp
          · simp only [hb] at h
            injection h with h1 h2
            subst h2
            exact restores_refl st
          · simp only [hb] at h
            split at h
            · injection h with h1 h2
              subst h2
              exact restores_refl st
            · split at h
              · injection h with h1 h2
                subst h2
                exact restores_refl st
              · split at h
                · injection h with h1 h2
                  subst h2
                  exact restores_refl st
                · split at h
                  · injection h with h1 h2
                    subst h2
                    exact restores_refl st
                  · split at h
                    · split at h
                      · exact ih env st (.reqC _) out st2 h hinv
                      · injection h with h1 h2
                        subst h2
                        exact restores_refl st
                    · injection h with h1 h2
                      subst h2
                      exact restores_refl st
    | eachC t len nmap sub i =>
      rw [run] at h
      by_cases hil : i < len
      · rw [if_pos hil] at h
        cases hnm : nmap i sub with
        | coll f2 l2 n2 =>
          simp only [hnm] at h
          cases hsi : setIndex st.indexes st.depth (.coll f2 l2 n2) with
          | none =>
            simp only [hsi] at h
            exact Res.noConfusion h
          | some ix2 =>
            simp only [hsi] at h
            obtain ⟨o1, stA, hr1, h⟩ := bind_ok h
            obtain ⟨o2, stB, hr2, h⟩ := bind_ok h
            injection h with h1 h2
            subst h2
            unfold setIndex at hsi
            have hcond : (0 : Int) ≤ st.depth - 1 ∧ st.depth - 1 < (st.indexes.length : Int) := by
              by_contra hno
              rw [if_neg hno] at hsi
              exact Option.noConfusion hsi
            rw [if_pos hcond] at hsi
            injection hsi with hix2
            have hton : (st.depth - 1).toNat = st.indexes.length - 1 := by omega
            have hlen : ix2.length = st.indexes.length := by
              rw [← hix2]
              exact List.length_set ..
            have hdrop : ix2.dropLast = st.indexes.dropLast := by
              rw [← hix2, hton]
              exact dropLast_set_last ..
            have hA : Restores ⟨st.preferred, ix2, st.depth⟩ stA :=
              ih env _ (.varsC t l2 n2 sub 0) o1 stA hr1 (by
                show st.depth = (ix2.length : Int)
                rw [hlen]
                exact hinv)
            have hB : LoopFrame stA stB :=
              ih env stA (.eachC t len nmap sub (i + 1)) o2 stB hr2 (by
                have hd1 : stA.depth = st.depth := hA.1
                have hd2 : stA.indexes = ix2 := hA.2.1
                rw [hd1, hd2, hlen]
                exact hinv)
            apply lf1_loopFrame_trans _ hB
            have hax : stA.indexes = ix2 := hA.2.1
            refine ⟨hA.1, ?_, ?_⟩
            · rw [hax, hlen]
            · rw [hax, hdrop]
        | base f2 =>
          simp only [hnm] at h
          by_cases hsub : sub ≠ []
          · rw [if_pos hsub] at h
            cases hfn : findNested ⟨st.preferred, st.indexes, ((splitDot sub).length : Int)⟩
                sub with
            | none =>
              simp only [hfn] at h
              exact Res.noConfusion h
            | some pref2 =>
              simp only [hfn] at h
              obtain ⟨o1, stA, hr1, h⟩ := bind_ok h
              obtain ⟨o2, stB, hr2, h⟩ := bind_ok h
              injection h with h1 h2
              subst h2
              have hB : LoopFrame ⟨stA.preferred, [], 0⟩ stB :=
                ih env _ (.eachC t len nmap sub (i + 1)) o2 stB hr2 (by simp)
              refine Or.inr ?_
              rcases hB with ⟨hd, hl, _⟩ | hB2
              · constructor
                · have hz : stB.indexes.length = 0 := by simpa using hl
                  exact List.length_eq_zero.mp hz
                · simpa using hd
              · exact hB2
          · rw [if_neg hsub] at h
            obtain ⟨o1, stA, hr1, h⟩ := bind_ok h
            obtain ⟨o2, stB, hr2, h⟩ := bind_ok h
            injection h with h1 h2
            subst h2
            have hA : Restores ⟨some (.base f2), st.indexes, st.depth⟩ stA :=
              ih env _ (.renderC t) o1 stA hr1 hinv
            have hB : LoopFrame ⟨none, stA.indexes, stA.depth⟩ stB :=
              ih env _ (.eachC t len nmap sub (i + 1)) o2 stB hr2 (by
                show stA.depth = (stA.indexes.length : Int)
                rw [hA.1, hA.2.1]
                exact hinv)
            apply lf1_loopFrame_trans _ hB
            have hax : stA.indexes = st.indexes := hA.2.1
            exact ⟨hA.1, by rw [hax], by rw [hax]⟩
      · rw [if_neg hil] at h
        injection h with h1 h2
        subst h2
        exact Or.inl (lf1_refl st)
    | varsC t len nmap sub i =>
      rw [run] at h
      by_cases hil : i < len
      · rw [if_pos hil] at h
        cases hnm : nmap i sub with
        | coll f2 l2 n2 =>
          simp only [hnm] at h
          obtain ⟨o1, stA, hr1, h⟩ := bind_ok h
          obtain ⟨o2, stB, hr2, h⟩ := bind_ok h
          injection h with h1 h2
          subst h2
          have hA : Restores st stA := ih env st (.varsC t l2 n2 sub 0) o1 stA hr1 hinv
          have hinvA : stA.depth = (stA.indexes.length : Int) := by
            rw [hA.1, hA.2.1]; exact hinv
          have hB : Restores stA stB :=
            ih env stA (.varsC t len nmap sub (i + 1)) o2 stB hr2 hinvA
          exact restores_trans hA hB
        | base f2 =>
          simp only [hnm] at h
          obtain ⟨o1, stA, hr1, h⟩ := bind_ok h
          obtain ⟨o2, stB, hr2, h⟩ := bind_ok h
          injection h with h1 h2
          subst h2
          have hA : Restores ⟨some (.base f2), st.indexes, st.depth⟩ stA :=
            ih env _ (.renderC t) o1 stA hr1 hinv
          have hB : Restores ⟨none, stA.indexes, stA.depth⟩ stB :=
            ih env _ (.varsC t len nmap sub (i + 1)) o2 stB hr2 (by
              show stA.depth = (stA.indexes.length : Int)
              rw [hA.1, hA.2.1]; exact hinv)
          refine ⟨?_, ?_, Or.inr ?_⟩
          · rw [hB.1]
            show stA.depth = st.depth
            rw [hA.1]
          · rw [hB.2.1]
            show stA.indexes = st.indexes
            rw [hA.2.1]
          · rcases hB.2.2 with hp | hp
            · exact hp
            · exact hp
      · rw [if_neg hil] at h
        injection h with h1 h2
        subst h2
        exact restores_refl st

/-- C9 counterexample: the claim asserts that every normally-returning
`each` dispatch restores the indexes stack.  Entered with depth 1 and a
two-entry stack — a configuration reachable mid-render, since the
sub-path leaf branch sets the depth from the dotted path, not from the
stack (placesmap.go:506) — the dispatch writes its element through
`h.indexes[h.depth-1]` into the *middle* slot (placesmap.go:499), pops
only the appended slot, and returns normally with the stack changed from
`[nil, nil]` to `[nil, innerC9]`. -/
theorem c9_counterexample :
    run 8 envC9 stC9 (.mmapC "-each z t".data)
      = .ok [] ⟨none, [none, some innerC9], 1⟩ ∧
    ¬ (([none, some innerC9] : List (Option Mapper)) = stC9.indexes) :=
  ⟨rfl, by simp [stC9]⟩

/-- C9 (amended): whenever a dispatch of an `each` expression returns
normally *and was entered with the depth counter equal to the length of
the indexes stack* (as holds for a fresh render), its depth counter and
indexes stack are restored to their values from immediately before the
dispatch, and its preferred provider is nil — except on the early-exit
paths (unbound name, missing template, non-collection target, malformed
arguments), which leave the whole context unchanged. -/
theorem c9_each_frame (fuel : Nat) (env : Env) (st : HState) (input : Str)
    (out : Str) (st2 : HState)
    (hinv : st.depth = (st.indexes.length : Int))
    (heach : (split input).1 = "each".data)
    (h : run fuel env st (.mmapC input) = .ok out st2) :
    st2.depth = st.depth ∧ st2.indexes = st.indexes ∧
      (st2.preferred = none ∨ st2 = st) := by
  cases fuel with
  | zero =>
    simp only [run] at h
    exact Res.noConfusion h
  | succ fuel =>
    rw [run] at h
    rcases hsp : split input with ⟨pre, rest⟩
    rw [hsp] at heach
    simp only at heach
    subst heach
    simp only [hsp] at h
    rw [if_pos trivial] at h
    rcases hep : eachParse rest with _ | ⟨mpName, sub, inc⟩
    · simp only [hep] at h
      exact Res.noConfusion h
    · simp only [hep] at h
      rcases hb : lookupA env.bindings mpName with _ | mp
      · simp only [hb] at h
        injection h with h1 h2
        subst h2
        exact ⟨rfl, rfl, Or.inr rfl⟩
      · simp only [hb] at h
        rcases hcache : lookupA env.cache inc with _ | t
        · simp only [hcache] at h
          injection h with h1 h2
          subst h2
          exact ⟨rfl, rfl, Or.inr rfl⟩
        · simp only [hcache] at h
          cases mp with
          | base f =>
            injection h with h1 h2
            subst h2
            exact ⟨rfl, rfl, Or.inr rfl⟩
          | coll f len nmap =>
            obtain ⟨o1, stA, hr1, h⟩ := bind_ok h
            obtain ⟨o2, stB, hr2, h⟩ := bind_ok h
            by_cases hie : stB.indexes.isEmpty
            · rw [if_pos hie] at h
              exact Res.noConfusion h
            · rw [if_neg hie] at h
              injection h with h1 h2
              subst h2
              have hinv1 : (⟨st.preferred, st.indexes ++ [none],
                  st.depth + 1⟩ : HState).depth
                  = (((⟨st.preferred, st.indexes ++ [none], st.depth + 1⟩ : HState)
                    ).indexes.length : Int) := by
                show st.depth + 1 = ((st.indexes ++ [none]).length : Int)
                simp only [List.length_append, List.length_cons, List.length_nil]
                omega
              have hL : LoopFrame ⟨st.preferred, st.indexes ++ [none], st.depth + 1⟩ stA :=
                run_frame fuel env _ (.eachC t len nmap sub 0) o1 stA hr1 hinv1
              have hinvA : stA.depth = (stA.indexes.length : Int) := by
                rcases hL with ⟨hd, hl, _⟩ | ⟨hx, hd0⟩
                · rw [hd, hl]
                  exact hinv1
                · rw [hx, hd0]
                  simp
              have hR : Restores stA stB :=
                run_frame fuel env stA (.varsC t len nmap sub 0) o2 stB hr2 hinvA
              rcases hL with ⟨hd, hl, hdl⟩ | ⟨hx, hd0⟩
              · refine ⟨?_, ?_, Or.inl rfl⟩
                · show stB.depth - 1 = st.depth
                  rw [hR.1, hd]
                  show st.depth + 1 - 1 = st.depth
                  omega
                · show stB.indexes.dropLast = st.indexes
                  rw [hR.2.1, hdl]
                  exact List.dropLast_concat
              · exfalso
                apply hie
                rw [hR.2.1, hx]
                rfl

theorem c9_witness :
    st9w.depth = st9w.depth ∧ st9w.indexes = st9w.indexes ∧
      (st9w.preferred = none ∨ st9w = st9w) :=
  c9_each_frame 2 envC9w st9w "-each z t".data [] st9w (by decide) (by decide) rfl
